import Mathlib

/-!
Shallow embedding of the chunking subsystem of `src/code_rag/chunking.py`
(the CodeRAG repository), together with theorems settling the claims about
it.

Python strings are embedded as `List Char` (`PyStr`): a Python `str` is a
sequence of code points, so list operations over `Char` mirror the
source's string operations directly.  Line splitting follows the source's
use of `str.splitlines`, restricted to `'\n'` line terminators; for the
ASCII contents considered in the concrete inputs, tree-sitter byte
offsets and code-point offsets coincide.  The regex scans of the source
are compiled by hand into character scanners; `(?m)^`-anchored patterns
are read line by line.
-/

abbrev PyStr := List Char

/-- Python's whitespace test, as used by `str.strip`, `str.split()` and the
regex class `\s` (ASCII range). -/
def pyIsWs (c : Char) : Bool :=
  c = ' ' || c = '\t' || c = '\n' || c = '\r' || c = '\x0b' || c = '\x0c'

/-- Python `s.strip()`: remove leading and trailing whitespace. -/
def pystrip (s : PyStr) : PyStr :=
  ((s.dropWhile pyIsWs).reverse.dropWhile pyIsWs).reverse

/-- Split at every `'\n'`; the result always has one more part than the
number of newlines (a trailing empty part included). -/
def splitOnNl : PyStr → List PyStr
  | [] => [[]]
  | c :: rest =>
      if c = '\n' then [] :: splitOnNl rest
      else (splitOnNl rest).modifyHead (c :: ·)

/-- Python `content.splitlines()` (with `'\n'` as the only terminator):
the `'\n'`-separated parts, with a final empty part dropped, so that
`"".splitlines() == []` and `"a\n".splitlines() == ["a"]`. -/
def pysplitlines (s : PyStr) : List PyStr :=
  let parts := splitOnNl s
  if parts.getLast? = some [] then parts.dropLast else parts

/-- Split at every whitespace character (empty parts kept). -/
def splitWsAll : PyStr → List PyStr
  | [] => [[]]
  | c :: rest =>
      if pyIsWs c then [] :: splitWsAll rest
      else (splitWsAll rest).modifyHead (c :: ·)

/-- Python `s.split()`: split on whitespace runs, discarding empties. -/
def pysplitWs (s : PyStr) : List PyStr :=
  (splitWsAll s).filter (· ≠ [])

/-- Python `sep.join(parts)`. -/
def pyjoin (sep : PyStr) : List PyStr → PyStr
  | [] => []
  | [p] => p
  | p :: ps => p ++ sep ++ pyjoin sep ps

/-- Python `sec.split("\n\n")` (non-overlapping, left to right). -/
def splitNlNl : PyStr → List PyStr
  | '\n' :: '\n' :: rest => [] :: splitNlNl rest
  | c :: rest => (splitNlNl rest).modifyHead (c :: ·)
  | [] => [[]]

/-- Python slicing `content[a:b]` for `0 ≤ a ≤ b`, as used with the
tree-sitter byte offsets (`_node_text`). -/
def pyslice (s : PyStr) (a b : Nat) : PyStr :=
  (s.drop a).take (b - a)

/-- `pathlib.Path(file_path).name`: the component after the last `'/'`. -/
def pybasename (file_path : String) : String :=
  ((file_path.data.reverse.takeWhile (· ≠ '/')).reverse).asString

/-- `pathlib.Path(file_path).suffix`: the final dot-suffix of the base
name; empty when there is no dot, when the dot is the first character of
the name, or when nothing follows the dot. -/
def pysuffix (file_path : String) : String :=
  let name := (pybasename file_path).data
  if name.contains '.' then
    let after := name.reverse.takeWhile (· ≠ '.')
    if 1 ≤ after.length ∧ after.length + 1 < name.length then
      ('.' :: after.reverse).asString
    else ""
  else ""

/-- The `EXT_TO_LANG` table (chunking.py:44-53). -/
def EXT_TO_LANG : List (String × String) :=
  [(".py", "python"),
   (".js", "javascript"), (".jsx", "javascript"),
   (".ts", "javascript"), (".tsx", "javascript"),
   (".java", "java"),
   (".c", "c"), (".cc", "cpp"), (".cpp", "cpp"), (".hpp", "cpp"), (".h", "cpp"),
   (".go", "go"), (".rs", "rust"),
   (".md", "markdown"), (".markdown", "markdown"),
   (".txt", "text")]

/-- `detect_language` (chunking.py:72-74): look the lowercased extension
up, defaulting to `"text"` (`.lower()` applied character-wise). -/
def detect_language (file_path : String) : String :=
  (EXT_TO_LANG.lookup ((pysuffix file_path).data.map Char.toLower).asString).getD "text"

/-- `LANG_DEFINITION_NODES.get(language, [])` (chunking.py:55-63, read at
chunking.py:133). -/
def LANG_DEFINITION_NODES (language : String) : List String :=
  if language = "python" then ["function_definition", "class_definition"]
  else if language = "javascript" then
    ["function_declaration", "method_definition", "class_declaration"]
  else if language = "java" then ["method_declaration", "class_declaration"]
  else if language = "c" then ["function_definition"]
  else if language = "cpp" then ["function_definition", "class_specifier"]
  else if language = "go" then
    ["function_declaration", "method_declaration", "type_declaration"]
  else if language = "rust" then
    ["function_item", "impl_item", "struct_item", "enum_item", "trait_item"]
  else []

/-- A tree-sitter syntax-tree node: kind string, byte span, (row, column)
start and end points, children in document order.  Trees are produced by
the external tree-sitter parser; `chunk_code` only reads them. -/
inductive TSNode where
  | mk (type : String) (start_byte end_byte : Nat)
       (start_point end_point : Nat × Nat) (children : List TSNode)

def TSNode.type : TSNode → String
  | .mk t _ _ _ _ _ => t

def TSNode.start_byte : TSNode → Nat
  | .mk _ sb _ _ _ _ => sb

def TSNode.end_byte : TSNode → Nat
  | .mk _ _ eb _ _ _ => eb

def TSNode.start_point : TSNode → Nat × Nat
  | .mk _ _ _ sp _ _ => sp

def TSNode.end_point : TSNode → Nat × Nat
  | .mk _ _ _ _ ep _ => ep

def TSNode.children : TSNode → List TSNode
  | .mk _ _ _ _ _ cs => cs

/-- `_node_text` (chunking.py:76-77): `content[node.start_byte:node.end_byte]`. -/
def node_text (content : PyStr) (node : TSNode) : PyStr :=
  pyslice content node.start_byte node.end_byte

/-- A chunk's metadata dictionary: one optional field per key the source
ever stores; a key absent from the Python dict is `none`. -/
structure ChunkMeta where
  file_path : String
  language : String
  node_type : String
  symbol_name : Option String := none
  start_line : Option Nat := none
  end_line : Option Nat := none
  section_id : Option Nat := none
  block_id : Option Nat := none
  dependencies : Option (List PyStr) := none
  chunk_id : Option String := none
  error : Option String := none
deriving DecidableEq

/-- The unit of output: content plus metadata. -/
structure Chunk where
  content : PyStr
  metadata : ChunkMeta
deriving DecidableEq

/-- The regex class `[A-Za-z_]`. -/
def isIdentStart (c : Char) : Bool :=
  c.isAlpha || c = '_'

/-- The regex class `\w` (`[A-Za-z0-9_]`, ASCII). -/
def isWordChar (c : Char) : Bool :=
  c.isAlphanum || c = '_'

/-- The regex class `[\w.]`. -/
def isWordDot (c : Char) : Bool :=
  isWordChar c || c = '.'

/-- The regex class `[\w:]`. -/
def isWordColon (c : Char) : Bool :=
  isWordChar c || c = ':'

/-- The regex class of the two quote characters (double quote and the
single quote, code point 39). -/
def isQuote (c : Char) : Bool :=
  c = '"' || c = Char.ofNat 39

/-- Match a literal at the front; on success return what follows it. -/
def dropLit (lit : PyStr) (s : PyStr) : Option PyStr :=
  if lit.isPrefixOf s then some (s.drop lit.length) else none

/-- Match `[A-Za-z_]\w*` at the front; return the identifier and the rest. -/
def takeIdent (s : PyStr) : Option (PyStr × PyStr) :=
  match s with
  | c :: rest =>
      if isIdentStart c then some (c :: rest.takeWhile isWordChar, rest.dropWhile isWordChar)
      else none
  | [] => none

/-- Match `[a-zA-Z_][\w.]*` at the front; return the match and the rest. -/
def takeDotIdent (s : PyStr) : Option (PyStr × PyStr) :=
  match s with
  | c :: rest =>
      if isIdentStart c then some (c :: rest.takeWhile isWordDot, rest.dropWhile isWordDot)
      else none
  | [] => none

/-- Match `(?:kw)\s+([A-Za-z_]\w*)` at the front (keyword, at least one
whitespace character, then a captured identifier). -/
def matchKwIdent (kw : PyStr) (s : PyStr) : Option PyStr :=
  match dropLit kw s with
  | some (c :: rest) =>
      if pyIsWs c then
        match takeIdent ((c :: rest).dropWhile pyIsWs) with
        | some p => some p.1
        | none => none
      else none
  | _ => none

/-- Try keywords in alternation order at the front of the text. -/
def matchAnyKwIdent (kws : List PyStr) (s : PyStr) : Option PyStr :=
  ((kws.filterMap fun kw => matchKwIdent kw s)).head?

/-- Unanchored `re.search` scan for `kw\s+([A-Za-z_]\w*)` with the given
keyword alternation (used for Java's `(?:class|interface)\s+(...)`). -/
def searchKwIdent (kws : List PyStr) : Nat → PyStr → Option PyStr
  | 0, _ => none
  | _ + 1, [] => none
  | fuel + 1, c :: rest =>
      match matchAnyKwIdent kws (c :: rest) with
      | some n => some n
      | none => searchKwIdent kws fuel rest

/-- Unanchored `re.search` scan for `\b([A-Za-z_]\w*)\s*\(` (the C/C++
symbol-name heuristic); `prevWord` records whether the previous character
was a word character, for the `\b` boundary. -/
def searchFnParen : Nat → Bool → PyStr → Option PyStr
  | 0, _, _ => none
  | _ + 1, _, [] => none
  | fuel + 1, prevWord, c :: rest =>
      if !prevWord && isIdentStart c then
        let name := c :: rest.takeWhile isWordChar
        match (rest.dropWhile isWordChar).dropWhile pyIsWs with
        | '(' :: _ => some name
        | _ => searchFnParen fuel (isWordChar c) rest
      else searchFnParen fuel (isWordChar c) rest

/-- Go's symbol-name pattern
`^\s*func\s+(?:\([^)]+\)\s+)?([A-Za-z_]\w*)\s*\(`: `func`, an optional
parenthesised receiver, then the captured name before `(`. -/
def goFuncName (text : PyStr) : Option PyStr :=
  match dropLit "func".data (text.dropWhile pyIsWs) with
  | some (c :: rest) =>
      if pyIsWs c then
        let r1 := (c :: rest).dropWhile pyIsWs
        let afterRecv : Option PyStr :=
          match r1 with
          | '(' :: r =>
              (match r.takeWhile (· ≠ ')'), r.dropWhile (· ≠ ')') with
               | _ :: _, _ :: a2 =>
                   (match a2 with
                    | d :: _ => if pyIsWs d then some (a2.dropWhile pyIsWs) else none
                    | [] => none)
               | _, _ => none)
          | _ => none
        let r2 := match afterRecv with | some x => x | none => r1
        match takeIdent r2 with
        | some p =>
            (match p.2.dropWhile pyIsWs with
             | '(' :: _ => some p.1
             | _ => none)
        | none => none
      else none
  | _ => none

/-- `_safe_name_for` (chunking.py:79-95): the per-language symbol-name
regexes, compiled by hand.  `re.search` without `re.M` anchors `^` at the
start of the node text only; the Java and C patterns are unanchored
scans. -/
def safe_name_for (language : String) (node : TSNode) (content : PyStr) : Option String :=
  let text := node_text content node
  let m : Option PyStr :=
    if language = "python" then matchAnyKwIdent ["def".data, "class".data] (text.dropWhile pyIsWs)
    else if language = "javascript" then
      matchAnyKwIdent ["function".data, "class".data] (text.dropWhile pyIsWs)
    else if language = "java" then
      searchKwIdent ["class".data, "interface".data] (text.length + 1) text
    else if language = "c" || language = "cpp" then
      searchFnParen (text.length + 1) false text
    else if language = "go" then goFuncName text
    else if language = "rust" then
      matchAnyKwIdent ["fn".data, "struct".data, "enum".data, "trait".data] (text.dropWhile pyIsWs)
    else none
  m.map List.asString

/-- One line of `(?m)^\s*import\s+([a-zA-Z_][\w.]*)` (Python imports). -/
def pyImportOnLine (l : PyStr) : Option PyStr :=
  match dropLit "import".data (l.dropWhile pyIsWs) with
  | some (c :: rest) =>
      if pyIsWs c then
        match takeDotIdent ((c :: rest).dropWhile pyIsWs) with
        | some p => some p.1
        | none => none
      else none
  | _ => none

/-- One line of `(?m)^\s*from\s+([a-zA-Z_][\w.]*)\s+import\s+`. -/
def pyFromImportOnLine (l : PyStr) : Option PyStr :=
  match dropLit "from".data (l.dropWhile pyIsWs) with
  | some (c :: rest) =>
      if pyIsWs c then
        match takeDotIdent ((c :: rest).dropWhile pyIsWs) with
        | some p =>
            (match p.2 with
             | d :: _ =>
                 if pyIsWs d then
                   match dropLit "import".data (p.2.dropWhile pyIsWs) with
                   | some (e :: _) => if pyIsWs e then some p.1 else none
                   | _ => none
                 else none
             | [] => none)
        | none => none
      else none
  | _ => none

/-- Match `['"]([^'"]+)['"]` at the front; return the capture and what
follows the closing quote. -/
def readQuoted (s : PyStr) : Option (PyStr × PyStr) :=
  match s with
  | c :: rest =>
      if isQuote c then
        let inside := rest.takeWhile (fun d => !isQuote d)
        match inside, rest.dropWhile (fun d => !isQuote d) with
        | _ :: _, _ :: after => some (inside, after)
        | _, _ => none
      else none
  | [] => none

/-- `\s+from\s+['"]([^'"]+)['"]` at the front (the tail of the JS import
pattern after the lazy `.+?`). -/
def jsFromAt (s : PyStr) : Option PyStr :=
  match s with
  | c :: _ =>
      if pyIsWs c then
        match dropLit "from".data (s.dropWhile pyIsWs) with
        | some (d :: rest2) =>
            if pyIsWs d then
              match readQuoted ((d :: rest2).dropWhile pyIsWs) with
              | some p => some p.1
              | none => none
            else none
        | _ => none
      else none
  | [] => none

/-- Scan for the earliest position where `jsFromAt` matches (the lazy
`.+?` of the JS import pattern: at least one preceding character). -/
def jsFromScan : Nat → PyStr → Option PyStr
  | 0, _ => none
  | _ + 1, [] => none
  | fuel + 1, _ :: rest =>
      match jsFromAt rest with
      | some n => some n
      | none => jsFromScan fuel rest

/-- One line of `(?m)^\s*import\s+(?:.+?\s+from\s+)?['"]([^'"]+)['"]`
(ES imports). -/
def jsImportOnLine (l : PyStr) : Option PyStr :=
  match dropLit "import".data (l.dropWhile pyIsWs) with
  | some (c :: rest) =>
      if pyIsWs c then
        let r1 := (c :: rest).dropWhile pyIsWs
        match readQuoted r1 with
        | some p => some p.1
        | none => jsFromScan (r1.length + 1) r1
      else none
  | _ => none

/-- Whole-content scan for `require\(['"]([^'"]+)['"]\)`. -/
def requireScan : Nat → PyStr → List PyStr
  | 0, _ => []
  | _ + 1, [] => []
  | fuel + 1, c :: rest =>
      match dropLit "require(".data (c :: rest) with
      | some r1 =>
          (match readQuoted r1 with
           | some (cap, ')' :: after) => cap :: requireScan fuel after
           | _ => requireScan fuel rest)
      | none => requireScan fuel rest

/-- One line of `(?m)^\s*import\s+([a-zA-Z_][\w.]*);` (Java imports). -/
def javaImportOnLine (l : PyStr) : Option PyStr :=
  match dropLit "import".data (l.dropWhile pyIsWs) with
  | some (c :: rest) =>
      if pyIsWs c then
        match takeDotIdent ((c :: rest).dropWhile pyIsWs) with
        | some (name, ';' :: _) => some name
        | _ => none
      else none
  | _ => none

/-- One line of `(?m)^\s*#\s*include\s+[<"]([^>"]+)[>"]`. -/
def cIncludeOnLine (l : PyStr) : Option PyStr :=
  match l.dropWhile pyIsWs with
  | '#' :: r1 =>
      (match dropLit "include".data (r1.dropWhile pyIsWs) with
       | some (c :: rest) =>
           if pyIsWs c then
             match (c :: rest).dropWhile pyIsWs with
             | o :: r2 =>
                 if o = '<' || o = '"' then
                   let stop := fun d => d = '>' || d = '"'
                   match r2.takeWhile (fun d => !stop d), r2.dropWhile (fun d => !stop d) with
                   | _ :: _, _ :: _ => some (r2.takeWhile (fun d => !stop d))
                   | _, _ => none
                 else none
             | [] => none
           else none
       | _ => none)
  | _ => none

/-- `re.findall(r"\"([^\"]+)\"", block)`: every non-empty double-quoted
string of a Go import block. -/
def goQuotedAll : Nat → PyStr → List PyStr
  | 0, _ => []
  | _ + 1, [] => []
  | fuel + 1, c :: rest =>
      if c = '"' then
        let inside := rest.takeWhile (· ≠ '"')
        match inside, rest.dropWhile (· ≠ '"') with
        | _ :: _, _ :: after => inside :: goQuotedAll fuel after
        | _, _ => goQuotedAll fuel rest
      else goQuotedAll fuel rest

/-- Whole-content scan for Go's
`(?s)import\s*(?:\(\s*([\s\S]*?)\s*\)|"([^"]+)")`, already combined with
the source's post-processing: a parenthesised block contributes the
quoted strings found inside it, a single import contributes its string
(chunking.py:109-118). -/
def goImportScan : Nat → PyStr → List PyStr
  | 0, _ => []
  | _ + 1, [] => []
  | fuel + 1, c :: rest =>
      match dropLit "import".data (c :: rest) with
      | some r1 =>
          (match r1.dropWhile pyIsWs with
           | '(' :: r2 =>
               let inside := r2.takeWhile (· ≠ ')')
               (match r2.dropWhile (· ≠ ')') with
                | _ :: after =>
                    goQuotedAll (inside.length + 1) (pystrip inside) ++ goImportScan fuel after
                | [] => goImportScan fuel rest)
           | '"' :: r2 =>
               let inside := r2.takeWhile (· ≠ '"')
               (match inside, r2.dropWhile (· ≠ '"') with
                | _ :: _, _ :: after => inside :: goImportScan fuel after
                | _, _ => goImportScan fuel rest)
           | _ => goImportScan fuel rest)
      | none => goImportScan fuel rest

/-- One line of `(?m)^\s*use\s+([a-zA-Z_][\w:]*)(?:\s*as\s*\w+)?\s*;`
(Rust `use` statements, dropping any `as` rename). -/
def rustUseOnLine (l : PyStr) : Option PyStr :=
  match dropLit "use".data (l.dropWhile pyIsWs) with
  | some (c :: rest) =>
      if pyIsWs c then
        match (c :: rest).dropWhile pyIsWs with
        | d :: r1 =>
            if isIdentStart d then
              let name := d :: r1.takeWhile isWordColon
              let after := r1.dropWhile isWordColon
              let afterAs : Option PyStr :=
                match dropLit "as".data (after.dropWhile pyIsWs) with
                | some r2 =>
                    (match r2.dropWhile pyIsWs with
                     | e :: r3 =>
                         if isWordChar e then some ((e :: r3).dropWhile isWordChar) else none
                     | [] => none)
                | none => none
              let fin := match afterAs with | some a => a | none => after
              (match fin.dropWhile pyIsWs with
               | ';' :: _ => some name
               | _ => none)
            else none
        | [] => none
      else none
  | _ => none

/-- After a `'['`, scan for the first `"]("` with at least one non-newline
character in between (the lazy `\[.+?\]\(` of the markdown link pattern);
return what follows the `"]("`. -/
def mdLinkBody : Nat → PyStr → Option PyStr
  | 0, _ => none
  | _ + 1, [] => none
  | fuel + 1, c :: rest =>
      if c = '\n' then none
      else
        match rest with
        | ']' :: '(' :: r2 => some r2
        | _ => mdLinkBody fuel rest

/-- Whole-content scan for `\[.+?\]\(([^)]+)\)` (markdown link targets). -/
def mdLinkScan : Nat → PyStr → List PyStr
  | 0, _ => []
  | _ + 1, [] => []
  | fuel + 1, c :: rest =>
      if c = '[' then
        match mdLinkBody (rest.length + 1) rest with
        | some r2 =>
            let inside := r2.takeWhile (· ≠ ')')
            (match inside, r2.dropWhile (· ≠ ')') with
             | _ :: _, _ :: after => inside :: mdLinkScan fuel after
             | _, _ => mdLinkScan fuel rest)
        | none => mdLinkScan fuel rest
      else mdLinkScan fuel rest

/-- Whole-content scan for the fenced code-block pattern; each match
contributes `codeblock:<lang>` (chunking.py:123). -/
def mdCodeblockScan : Nat → PyStr → List PyStr
  | 0, _ => []
  | _ + 1, [] => []
  | fuel + 1, c :: rest =>
      match dropLit "```".data (c :: rest) with
      | some (d :: r2) =>
          if isWordChar d then
            ("codeblock:".data ++ (d :: r2.takeWhile isWordChar))
              :: mdCodeblockScan fuel (r2.dropWhile isWordChar)
          else mdCodeblockScan fuel rest
      | _ => mdCodeblockScan fuel rest

/-- The per-language pattern scans of `extract_dependencies`
(chunking.py:97-123), before the final `sorted(set(...))`; an
unsupported tag contributes nothing. -/
def rawDeps (language : String) (content : PyStr) : List PyStr :=
  if language = "python" then
    (splitOnNl content).filterMap pyImportOnLine
      ++ (splitOnNl content).filterMap pyFromImportOnLine
  else if language = "javascript" then
    (splitOnNl content).filterMap jsImportOnLine
      ++ requireScan (content.length + 1) content
  else if language = "java" then (splitOnNl content).filterMap javaImportOnLine
  else if language = "c" || language = "cpp" then
    (splitOnNl content).filterMap cIncludeOnLine
  else if language = "go" then goImportScan (content.length + 1) content
  else if language = "rust" then (splitOnNl content).filterMap rustUseOnLine
  else if language = "markdown" then
    mdLinkScan (content.length + 1) content
      ++ mdCodeblockScan (content.length + 1) content
  else []

/-- `extract_dependencies` (chunking.py:97-124): the pattern scans,
then `sorted(set(deps))` — the lexicographically sorted list of the
distinct matches. -/
def extract_dependencies (language : String) (content : PyStr) : List PyStr :=
  ((rawDeps language content).dedup).insertionSort (· ≤ ·)

/-- The chunk dict built for one definition node (chunking.py:141-151). -/
def defChunk (file_path : String) (content : PyStr) (language : String)
    (node : TSNode) : Chunk :=
  { content := node_text content node
    metadata := {
      file_path := file_path
      language := language
      node_type := node.type
      symbol_name := safe_name_for language node content
      start_line := some (node.start_point.1 + 1)
      end_line := some (node.end_point.1 + 1) } }

/- The tree walk of `chunk_code` (chunking.py:136-151).  The source pops a
node from the end of the stack, appends its chunk if its kind is a
definition kind, and pushes the children in reverse, so each node is
handled before its children, and the children before the remaining stack:
exactly this preorder recursion. -/
mutual
def walkNode (fp : String) (content : PyStr) (language : String)
    (def_nodes : List String) : TSNode → List Chunk
  | .mk t sb eb sp ep cs =>
      (if def_nodes.contains t
       then [defChunk fp content language (.mk t sb eb sp ep cs)] else [])
        ++ walkForest fp content language def_nodes cs
def walkForest (fp : String) (content : PyStr) (language : String)
    (def_nodes : List String) : List TSNode → List Chunk
  | [] => []
  | n :: ns =>
      walkNode fp content language def_nodes n
        ++ walkForest fp content language def_nodes ns
end

/- All nodes of a tree in the order the source's stack loop visits them
(the node itself, then its children's subtrees in document order). -/
mutual
def preorder : TSNode → List TSNode
  | .mk t sb eb sp ep cs => .mk t sb eb sp ep cs :: preorderForest cs
def preorderForest : List TSNode → List TSNode
  | [] => []
  | n :: ns => preorder n ++ preorderForest ns
end

/-- `chunk_code` (chunking.py:127-165), with the parse tree passed in:
the tree-sitter parser is an external library, and
`root = parser.parse(bytes(content)).root_node`. -/
def chunk_code (file_path : String) (content : PyStr) (language : String)
    (root : TSNode) : List Chunk :=
  let def_nodes := LANG_DEFINITION_NODES language
  let chunks := walkForest file_path content language def_nodes [root]
  if chunks = [] then
    [{ content := content
       metadata := {
         file_path := file_path
         language := language
         node_type := "file"
         symbol_name := some (pybasename file_path)
         start_line := some 1
         end_line := some (if (pysplitlines content).length = 0 then 1
                           else (pysplitlines content).length) } }]
  else chunks

/-- Is a line an ATX heading, i.e. a full match of `^#{1,6}\s+.*$` within
one line?  (In the source's multiline regex, `\s+` could in principle also
swallow the newline after a bare `##` line; the line-based reading is used
here.) -/
def isHeadingLine (l : PyStr) : Bool :=
  let hashes := l.takeWhile (· = '#')
  if 1 ≤ hashes.length ∧ hashes.length ≤ 6 then
    match l.dropWhile (· = '#') with
    | c :: _ => pyIsWs c
    | [] => false
  else false

/-- The parts list of `re.split(r"(?m)(^#{1,6}\s+.*$)", content)`
(chunking.py:168): alternating unmatched text (even indices) and captured
heading lines (odd indices); a heading match excludes its trailing
newline, which starts the following text part. -/
def buildParts (buf : PyStr) : List PyStr → List PyStr
  | [] => [buf]
  | [l] => if isHeadingLine l then [buf, l, []] else [buf ++ l]
  | l :: l2 :: rest =>
      if isHeadingLine l then buf :: l :: buildParts ['\n'] (l2 :: rest)
      else buildParts (buf ++ l ++ ['\n']) (l2 :: rest)

def splitHeadingParts (content : PyStr) : List PyStr :=
  buildParts [] (splitOnNl content)

/-- The pairing loop `for i in range(0, len(parts), 2)` (chunking.py:170-172):
the element at each even index (read by the source as the "heading") with
its successor (read as the "body"; `""` past the end). -/
def pairEvens : List PyStr → List (PyStr × PyStr)
  | [] => []
  | [a] => [(a, [])]
  | a :: b :: rest => (a, b) :: pairEvens rest

/-- The `sections` list of `chunk_markdown` (chunking.py:169-175). -/
def mdSections (content : PyStr) : List PyStr :=
  (pairEvens (splitHeadingParts content)).filterMap fun hb =>
    let block := pystrip (hb.1 ++ hb.2)
    if block = [] then none else some block

/-- One markdown section chunk dict (chunking.py:183-188). -/
def mdChunk (file_path : String) (sec : PyStr) (sid : Nat) : Chunk :=
  { content := sec
    metadata := {
      file_path := file_path
      language := "markdown"
      node_type := "section"
      symbol_name := none
      section_id := some sid } }

/-- The greedy paragraph-packing loop of `chunk_markdown`
(chunking.py:192-212); state: next `section_id`, current buffer, remaining
paragraphs; returns the emitted chunks and the final `section_id`. -/
def mdPack (file_path : String) : Nat → List PyStr → List PyStr → List Chunk × Nat
  | sid, buf, [] =>
      if buf = [] then ([], sid)
      else ([mdChunk file_path (pyjoin "\n\n".data buf) sid], sid + 1)
  | sid, buf, para :: paras =>
      if (pysplitWs (pyjoin " ".data (buf ++ [para]))).length ≤ 400 then
        mdPack file_path sid (buf ++ [para]) paras
      else
        let c := mdChunk file_path (pyjoin "\n\n".data buf) sid
        let r := mdPack file_path (sid + 1) [para] paras
        (c :: r.1, r.2)

/-- Handle one section (chunking.py:180-212): emit it directly when within
the 400-word budget, otherwise split it into stripped non-empty paragraphs
and pack them greedily. -/
def mdEmitSection (file_path : String) (sid : Nat) (sec : PyStr) : List Chunk × Nat :=
  if (pysplitWs sec).length ≤ 400 then ([mdChunk file_path sec sid], sid + 1)
  else
    let paras := (splitNlNl sec).filterMap fun p =>
      let q := pystrip p
      if q = [] then none else some q
    mdPack file_path sid [] paras

/-- The `for sec in sections or [content]` loop, threading the
`section_id` counter. -/
def mdLoop (file_path : String) : Nat → List PyStr → List Chunk
  | _, [] => []
  | sid, sec :: secs =>
      let r := mdEmitSection file_path sid sec
      r.1 ++ mdLoop file_path r.2 secs

/-- `chunk_markdown` (chunking.py:167-213). -/
def chunk_markdown (file_path : String) (content : PyStr) : List Chunk :=
  let sections := mdSections content
  mdLoop file_path 0 (if sections = [] then [content] else sections)

/-- The stripped window `j` of the text chunker:
`"\n".join(lines[i:i+80]).strip()` for `i = 80*j` (`block_id = i // 80 = j`
for the loop `for i in range(0, len(lines), 80)`). -/
def textWindow (lines : List PyStr) (j : Nat) : PyStr :=
  pystrip (pyjoin ['\n'] ((lines.drop (80 * j)).take 80))

/-- One text block chunk dict (chunking.py:222-227). -/
def textChunk (file_path : String) (part : PyStr) (j : Nat) : Chunk :=
  { content := part
    metadata := {
      file_path := file_path
      language := "text"
      node_type := "block"
      symbol_name := none
      block_id := some j } }

/-- `chunk_text` (chunking.py:215-235); the loop `for i in range(0,
len(lines), 80)` makes one step per window index `j = i // 80`, i.e.
`⌈len(lines)/80⌉` steps. -/
def chunk_text (file_path : String) (content : PyStr) : List Chunk :=
  let lines := pysplitlines content
  let chunks := (List.range ((lines.length + 79) / 80)).filterMap fun j =>
    let part := textWindow lines j
    if part = [] then none else some (textChunk file_path part j)
  if chunks = [] ∧ pystrip content ≠ [] then
    [textChunk file_path (pystrip content) 0]
  else chunks

/-- The stamping loop `for idx, ch in enumerate(chunks)`
(chunking.py:250-252): set `dependencies` and `chunk_id` on every chunk. -/
def stampAll (file_path : String) (deps : List PyStr) : Nat → List Chunk → List Chunk
  | _, [] => []
  | idx, c :: cs =>
      { c with metadata := { c.metadata with
          dependencies := some deps
          chunk_id := some (file_path ++ "::chunk" ++ Nat.repr idx) } }
        :: stampAll file_path deps (idx + 1) cs

/-- `chunk_file` (chunking.py:238-253), with the tree-sitter parse
supplied as a function `parse language content` (external library call
made inside `chunk_code`). -/
def chunk_file (parse : String → PyStr → TSNode) (file_path : String)
    (content : PyStr) : List Chunk :=
  let language := detect_language file_path
  let deps := extract_dependencies language content
  let chunks :=
    if language = "markdown" then chunk_markdown file_path content
    else if language ≠ "text" then
      chunk_code file_path content language (parse language content)
    else chunk_text file_path content
  stampAll file_path deps 0 chunks

/-- The synthetic chunk built in `chunk_codebase`'s `except` branch
(chunking.py:261-267). -/
def errorChunk (file_path : String) (content : PyStr) (e : String) : Chunk :=
  { content := content.take 2000
    metadata := {
      file_path := file_path
      language := "text"
      node_type := "error_fallback"
      symbol_name := none
      chunk_id := some (file_path ++ "::error0")
      dependencies := some []
      error := some e } }

/-- `chunk_codebase` (chunking.py:255-268), with the per-file chunking
call modelled as a function that may fail: `.error e` stands for
`chunk_file` raising an exception rendered as `e` (possible only inside
the external tree-sitter calls; the embedded `chunk_file` itself is
total), which the source catches and converts. -/
def chunk_codebase (file_chunks : String → PyStr → Except String (List Chunk)) :
    List (String × PyStr) → List Chunk
  | [] => []
  | (fp, content) :: rest =>
      (match file_chunks fp content with
       | .ok cs => cs
       | .error e => [errorChunk fp content e]) ++ chunk_codebase file_chunks rest

/-- The example tree of a file with two Python function definitions
(the shape tree-sitter produces for
`"def a():\n    pass\n\ndef b():\n    pass\n"`). -/
def pyTreeEx : TSNode :=
  .mk "module" 0 37 (0, 0) (5, 0)
    [.mk "function_definition" 0 17 (0, 0) (1, 8)
       [.mk "identifier" 4 5 (0, 4) (0, 5) []],
     .mk "function_definition" 19 36 (3, 0) (4, 8) []]

def pyContentEx : PyStr := "def a():\n    pass\n\ndef b():\n    pass\n".data

/-- A parse tree with no definition-kind nodes. -/
def flatTreeEx : TSNode := .mk "module" 0 5 (0, 0) (0, 5) []

/-- A trivial stand-in for the external tree-sitter parser. -/
def exParse : String → PyStr → TSNode := fun _ _ => .mk "module" 0 0 (0, 0) (0, 0) []

/-- The stamped chunk `chunk_file exParse "n.txt" "hello"` produces. -/
def exStampedChunk : Chunk :=
  { content := "hello".data
    metadata := {
      file_path := "n.txt", language := "text", node_type := "block",
      symbol_name := none, block_id := some 0,
      dependencies := some [], chunk_id := some "n.txt::chunk0" } }

/-- A per-file chunker that fails on exactly one path. -/
def exFileChunks : String → PyStr → Except String (List Chunk) :=
  fun file_path content =>
    if file_path = "bad.py" then .error "parse failure"
    else .ok [textChunk file_path (pystrip content) 0]

/-- The stamped first chunk `chunk_file exParse "m.md" "# H\nbody"` produces. -/
def exMdStamped : Chunk :=
  { content := "# H".data
    metadata := {
      file_path := "m.md", language := "markdown", node_type := "section",
      symbol_name := none, section_id := some 0,
      dependencies := some [], chunk_id := some "m.md::chunk0" } }

/-- 500 words `a`, each followed by a space (1000 characters). -/
def c9body0 : PyStr := (List.replicate 500 "a ".data).flatten

/-- The stripped form of the 500-word body. -/
def c9body : PyStr := (List.replicate 499 "a ".data).flatten ++ ['a']

/-- A markdown file: a single ATX heading followed by a 500-word body. -/
def c9content : PyStr := "# Title\n".data ++ c9body0

/-- Decimal decoder, the inverse of `Nat.repr` (used to show that the
`chunk_id` sequence numbers embed injectively). -/
def decodeDec (l : List Char) : Nat :=
  l.foldl (fun acc c => acc * 10 + (c.toNat - 48)) 0

set_option maxRecDepth 200000

/- The stack walk of `chunk_code` handles a node before its children and
the children before the rest of the stack, so the chunks it emits are the
definition-kind nodes of the preorder listing, in order. -/
mutual
theorem walkNode_eq (fp : String) (content : PyStr) (language : String)
    (dn : List String) : ∀ n : TSNode,
    walkNode fp content language dn n
      = ((preorder n).filter fun m => dn.contains m.type).map (defChunk fp content language)
  | .mk t sb eb sp ep cs => by
      rw [walkNode, preorder, walkForest_eq fp content language dn cs]
      by_cases h : t ∈ dn <;>
        simp [List.filter_cons, h, TSNode.type]
theorem walkForest_eq (fp : String) (content : PyStr) (language : String)
    (dn : List String) : ∀ ns : List TSNode,
    walkForest fp content language dn ns
      = ((preorderForest ns).filter fun m => dn.contains m.type).map (defChunk fp content language)
  | [] => by simp [walkForest, preorderForest]
  | n :: ns => by
      rw [walkForest, preorderForest, walkNode_eq fp content language dn n,
        walkForest_eq fp content language dn ns, List.filter_append, List.map_append]
end

theorem chunk_code_eq_of_walk (file_path : String) (content : PyStr) (language : String)
    (root : TSNode) :
    walkForest file_path content language (LANG_DEFINITION_NODES language) [root]
      = ((preorder root).filter fun m =>
          (LANG_DEFINITION_NODES language).contains m.type).map
            (defChunk file_path content language) := by
  rw [walkForest_eq]
  simp [preorderForest]

/-- C2: for every file whose syntax tree contains at least one
definition-kind node for its language, `chunk_code` returns exactly one
chunk per definition-kind node encountered (the filtered preorder
listing, in walk order), and each chunk's `content` is exactly the
source span `[start_byte, end_byte)` of its node, with `node_type` the
node's kind and `start_line`/`end_line` the node's first/last line,
1-indexed inclusive. -/
theorem chunk_code_def_chunks (file_path : String) (content : PyStr) (language : String)
    (root : TSNode)
    (h : 0 < ((preorder root).filter fun m =>
        (LANG_DEFINITION_NODES language).contains m.type).length) :
    chunk_code file_path content language root
      = ((preorder root).filter fun m =>
          (LANG_DEFINITION_NODES language).contains m.type).map
            (defChunk file_path content language)
    ∧ ∀ (i : Nat) (n : TSNode), ((preorder root).filter fun m =>
          (LANG_DEFINITION_NODES language).contains m.type)[i]? = some n →
        ∃ c : Chunk, (chunk_code file_path content language root)[i]? = some c
          ∧ c.content = pyslice content n.start_byte n.end_byte
          ∧ c.metadata.node_type = n.type
          ∧ c.metadata.start_line = some (n.start_point.1 + 1)
          ∧ c.metadata.end_line = some (n.end_point.1 + 1) := by
  have hw := chunk_code_eq_of_walk file_path content language root
  have hne : walkForest file_path content language (LANG_DEFINITION_NODES language) [root] ≠ [] := by
    rw [hw]
    intro hz
    rw [List.map_eq_nil_iff] at hz
    rw [hz] at h
    simp at h
  have hcc : chunk_code file_path content language root
      = ((preorder root).filter fun m =>
          (LANG_DEFINITION_NODES language).contains m.type).map
            (defChunk file_path content language) := by
    rw [chunk_code, if_neg hne, hw]
  refine ⟨hcc, ?_⟩
  intro i n hi
  refine ⟨defChunk file_path content language n, ?_, rfl, rfl, rfl, rfl⟩
  rw [hcc, List.getElem?_map, hi]
  rfl

/-- C2 witness: the two-function example file. -/
theorem chunk_code_def_chunks_witness :
    0 < ((preorder pyTreeEx).filter fun m =>
        (LANG_DEFINITION_NODES "python").contains m.type).length
    ∧ chunk_code "foo.py" pyContentEx "python" pyTreeEx
        = ((preorder pyTreeEx).filter fun m =>
            (LANG_DEFINITION_NODES "python").contains m.type).map
              (defChunk "foo.py" pyContentEx "python") :=
  ⟨by decide, (chunk_code_def_chunks "foo.py" pyContentEx "python" pyTreeEx (by decide)).1⟩

/-- C5: for every file whose syntax tree contains zero definition-kind
nodes for its language, `chunk_code` returns exactly one fallback chunk
covering the whole file, with `node_type` `"file"`, `symbol_name` the
file's base name, `start_line` 1, and `end_line` the file's total line
count (minimum 1). -/
theorem chunk_code_whole_file (file_path : String) (content : PyStr) (language : String)
    (root : TSNode)
    (h : ((preorder root).filter fun m =>
        (LANG_DEFINITION_NODES language).contains m.type).length = 0) :
    chunk_code file_path content language root
      = [{ content := content
           metadata := {
             file_path := file_path
             language := language
             node_type := "file"
             symbol_name := some (pybasename file_path)
             start_line := some 1
             end_line := some (if (pysplitlines content).length = 0 then 1
                               else (pysplitlines content).length) } }] := by
  have hw := chunk_code_eq_of_walk file_path content language root
  rw [List.length_eq_zero] at h
  rw [chunk_code, if_pos (by rw [hw, h, List.map_nil])]

/-- C5 witness: a definition-free file. -/
theorem chunk_code_whole_file_witness :
    chunk_code "pkg/foo.py" "x = 1".data "python" flatTreeEx
      = [{ content := "x = 1".data
           metadata := {
             file_path := "pkg/foo.py"
             language := "python"
             node_type := "file"
             symbol_name := some (pybasename "pkg/foo.py")
             start_line := some 1
             end_line := some (if (pysplitlines "x = 1".data).length = 0 then 1
                               else (pysplitlines "x = 1".data).length) } }] :=
  chunk_code_whole_file "pkg/foo.py" "x = 1".data "python" flatTreeEx (by decide)

/-- C7: for every language tag and content, `extract_dependencies`
returns a duplicate-free, lexicographically sorted list; it is a pure
total function (deterministic, never raises by construction), and for
any tag outside the supported set it returns the empty list. -/
theorem extract_dependencies_sorted_nodup (language : String) (content : PyStr) :
    (extract_dependencies language content).Sorted (· ≤ ·)
    ∧ (extract_dependencies language content).Nodup
    ∧ (language ∉ ["python", "javascript", "java", "c", "cpp", "go", "rust", "markdown"] →
       extract_dependencies language content = []) := by
  refine ⟨List.sorted_insertionSort _ _,
    ((List.perm_insertionSort _ _).nodup_iff).mpr (List.nodup_dedup _), ?_⟩
  intro h
  simp only [List.mem_cons, List.not_mem_nil, or_false, not_or] at h
  obtain ⟨h1, h2, h3, h4, h5, h6, h7, h8⟩ := h
  simp [extract_dependencies, rawDeps, h1, h2, h3, h4, h5, h6, h7, h8]

/-- C7 witness: a Python file with a duplicated import, and an
unsupported tag. -/
theorem extract_dependencies_sorted_nodup_witness :
    (extract_dependencies "python" "import os\nimport re\nimport os\n".data).Sorted (· ≤ ·)
    ∧ (extract_dependencies "python" "import os\nimport re\nimport os\n".data).Nodup
    ∧ extract_dependencies "html" "import os".data = [] :=
  ⟨(extract_dependencies_sorted_nodup "python" "import os\nimport re\nimport os\n".data).1,
   (extract_dependencies_sorted_nodup "python" "import os\nimport re\nimport os\n".data).2.1,
   (extract_dependencies_sorted_nodup "html" "import os".data).2.2 (by decide)⟩

/-- C4: `chunk_codebase` never raises (it is a total function of the
per-file chunker); a file whose chunking fails contributes exactly one
synthetic chunk — `node_type` `"error_fallback"`, `content` the first
2000 characters of the raw content, empty `dependencies`, and an `error`
field — and the chunks of all other files are exactly those of the batch
with the failing file absent. -/
theorem chunk_codebase_isolates (file_chunks : String → PyStr → Except String (List Chunk))
    (pre post : List (String × PyStr)) (file_path : String) (content : PyStr) (e : String)
    (h : file_chunks file_path content = .error e) :
    chunk_codebase file_chunks (pre ++ (file_path, content) :: post)
      = chunk_codebase file_chunks pre
        ++ errorChunk file_path content e :: chunk_codebase file_chunks post
    ∧ chunk_codebase file_chunks (pre ++ post)
        = chunk_codebase file_chunks pre ++ chunk_codebase file_chunks post
    ∧ (errorChunk file_path content e).content = content.take 2000
    ∧ (errorChunk file_path content e).metadata.node_type = "error_fallback"
    ∧ (errorChunk file_path content e).metadata.dependencies = some []
    ∧ (errorChunk file_path content e).metadata.error = some e := by
  refine ⟨?_, ?_, rfl, rfl, rfl, rfl⟩
  · induction pre with
    | nil => simp [chunk_codebase, h]
    | cons p rest ih =>
        obtain ⟨fp, c⟩ := p
        simp only [List.cons_append, chunk_codebase, List.append_eq, ih, List.append_assoc]
  · induction pre with
    | nil => simp [chunk_codebase]
    | cons p rest ih =>
        obtain ⟨fp, c⟩ := p
        simp only [List.cons_append, chunk_codebase, List.append_eq, ih, List.append_assoc]

/-- C4 witness: a three-file batch whose middle file fails. -/
theorem chunk_codebase_isolates_witness :
    chunk_codebase exFileChunks
        ([("a.txt", "hi".data)] ++ ("bad.py", "xx".data) :: [("b.txt", "yo".data)])
      = chunk_codebase exFileChunks [("a.txt", "hi".data)]
        ++ errorChunk "bad.py" "xx".data "parse failure"
          :: chunk_codebase exFileChunks [("b.txt", "yo".data)] :=
  (chunk_codebase_isolates exFileChunks [("a.txt", "hi".data)] [("b.txt", "yo".data)]
    "bad.py" "xx".data "parse failure" rfl).1

theorem toDigitsCore_shift (b : Nat) :
    ∀ (fuel n : Nat) (ds : List Char),
      Nat.toDigitsCore b fuel n ds = Nat.toDigitsCore b fuel n [] ++ ds := by
  intro fuel
  induction fuel with
  | zero => intro n ds; simp [Nat.toDigitsCore]
  | succ f ih =>
      intro n ds
      simp only [Nat.toDigitsCore]
      by_cases h : n / b = 0
      · simp [h]
      · simp only [h, if_false]
        rw [ih (n / b) [Nat.digitChar (n % b)], ih (n / b) (Nat.digitChar (n % b) :: ds),
          List.append_assoc]
        rfl

theorem toDigitsCore_fuel (b : Nat) (hb : 2 ≤ b) :
    ∀ (n f1 f2 : Nat), n < f1 → n < f2 →
      Nat.toDigitsCore b f1 n [] = Nat.toDigitsCore b f2 n [] := by
  intro n
  induction n using Nat.strong_induction_on with
  | _ n ih =>
      intro f1 f2 h1 h2
      match f1, f2 with
      | g1 + 1, g2 + 1 =>
        simp only [Nat.toDigitsCore]
        by_cases h : n / b = 0
        · simp [h]
        · simp only [h, if_false]
          rw [toDigitsCore_shift b g1, toDigitsCore_shift b g2]
          have hdiv : n / b < n := Nat.div_lt_self (Nat.pos_of_ne_zero (by
            intro hz; rw [hz] at h; simp at h)) (by omega)
          rw [ih (n / b) hdiv g1 g2 (by omega) (by omega)]

theorem toDigits_step (n : Nat) :
    Nat.toDigits 10 n
      = if n < 10 then [Nat.digitChar n]
        else Nat.toDigits 10 (n / 10) ++ [Nat.digitChar (n % 10)] := by
  by_cases h : n < 10
  · simp only [h, if_true, Nat.toDigits, Nat.toDigitsCore]
    rw [if_pos (Nat.div_eq_of_lt h), Nat.mod_eq_of_lt h]
  · rw [if_neg h]
    have hdiv0 : ¬ n / 10 = 0 := by
      rw [Nat.div_eq_zero_iff (by norm_num)]
      exact h
    have hdivlt : n / 10 < n := Nat.div_lt_self (by omega) (by norm_num)
    conv_lhs => rw [Nat.toDigits]
    simp only [Nat.toDigitsCore]
    rw [if_neg hdiv0, toDigitsCore_shift 10 n (n / 10),
      toDigitsCore_fuel 10 (by norm_num) (n / 10) n (n / 10 + 1) hdivlt (Nat.lt_succ_self _)]
    rfl

theorem decodeDec_append_digit (l : List Char) (c : Char) :
    decodeDec (l ++ [c]) = decodeDec l * 10 + (c.toNat - 48) := by
  simp [decodeDec, List.foldl_append]

theorem digitChar_val (k : Nat) (h : k < 10) : (Nat.digitChar k).toNat - 48 = k := by
  interval_cases k <;> rfl

theorem decodeDec_toDigits (n : Nat) : decodeDec (Nat.toDigits 10 n) = n := by
  induction n using Nat.strong_induction_on with
  | _ n ih =>
      rw [toDigits_step n]
      by_cases h : n < 10
      · simp only [h, if_true, decodeDec, List.foldl_cons, List.foldl_nil]
        rw [digitChar_val n h]
        omega
      · simp only [h, if_false]
        rw [decodeDec_append_digit, ih (n / 10) (Nat.div_lt_self (by omega) (by norm_num)),
          digitChar_val (n % 10) (Nat.mod_lt n (by norm_num))]
        omega

theorem natRepr_injective : ∀ m n : Nat, Nat.repr m = Nat.repr n → m = n := by
  intro m n h
  have hd : Nat.toDigits 10 m = Nat.toDigits 10 n := by
    have h2 := congrArg String.data h
    simpa [Nat.repr] using h2
  calc m = decodeDec (Nat.toDigits 10 m) := (decodeDec_toDigits m).symm
    _ = decodeDec (Nat.toDigits 10 n) := by rw [hd]
    _ = n := decodeDec_toDigits n

theorem stampAll_getElem (file_path : String) (deps : List PyStr) :
    ∀ (cs : List Chunk) (j i : Nat),
      (stampAll file_path deps j cs)[i]?
        = (cs[i]?).map fun c =>
            { c with metadata := { c.metadata with
                dependencies := some deps
                chunk_id := some (file_path ++ "::chunk" ++ Nat.repr (j + i)) } } := by
  intro cs
  induction cs with
  | nil => intro j i; simp [stampAll]
  | cons c rest ih =>
      intro j i
      match i with
      | 0 => simp [stampAll]
      | i + 1 =>
          simp only [stampAll, List.getElem?_cons_succ]
          rw [ih (j + 1) i]
          have harith : j + 1 + i = j + (i + 1) := by omega
          rw [harith]

/-- C6: every chunk returned by `chunk_file` carries the same
`dependencies` value, equal to `extract_dependencies` of the detected
language and content, and a `chunk_id` of the form
`<file_path>::chunk<i>` where `i` is the chunk's zero-based position, so
`chunk_id`s are pairwise distinct within a file. -/
theorem chunk_file_stamps (parse : String → PyStr → TSNode) (file_path : String)
    (content : PyStr) :
    ∀ (i : Nat) (c : Chunk), (chunk_file parse file_path content)[i]? = some c →
      c.metadata.dependencies
          = some (extract_dependencies (detect_language file_path) content)
      ∧ c.metadata.chunk_id = some (file_path ++ "::chunk" ++ Nat.repr i)
      ∧ ∀ (j : Nat) (d : Chunk), (chunk_file parse file_path content)[j]? = some d →
          d.metadata.chunk_id = c.metadata.chunk_id → j = i := by
  intro i c hc
  rw [chunk_file] at hc
  rw [stampAll_getElem] at hc
  match hb : (if detect_language file_path = "markdown" then chunk_markdown file_path content
    else if detect_language file_path ≠ "text" then
      chunk_code file_path content (detect_language file_path)
        (parse (detect_language file_path) content)
    else chunk_text file_path content)[i]? with
  | none => rw [hb] at hc; simp at hc
  | some c0 =>
      rw [hb] at hc
      simp only [Option.map_some', Option.some.injEq, Nat.zero_add] at hc
      subst hc
      refine ⟨rfl, rfl, ?_⟩
      intro j d hd hde
      rw [chunk_file, stampAll_getElem] at hd
      match hb2 : (if detect_language file_path = "markdown" then chunk_markdown file_path content
        else if detect_language file_path ≠ "text" then
          chunk_code file_path content (detect_language file_path)
            (parse (detect_language file_path) content)
        else chunk_text file_path content)[j]? with
      | none => rw [hb2] at hd; simp at hd
      | some d0 =>
          rw [hb2] at hd
          simp only [Option.map_some', Option.some.injEq, Nat.zero_add] at hd
          subst hd
          simp only [ChunkMeta.chunk_id] at hde
          have hs : file_path ++ "::chunk" ++ Nat.repr j
              = file_path ++ "::chunk" ++ Nat.repr i :=
            Option.some_injective _ hde
          have hdata := congrArg String.data hs
          rw [String.data_append, String.data_append, String.data_append,
            String.data_append] at hdata
          have hr : (Nat.repr j).data = (Nat.repr i).data :=
            List.append_cancel_left hdata
          exact natRepr_injective j i (String.ext hr)

/-- C6 witness: one stamped text chunk. -/
theorem chunk_file_stamps_witness :
    (chunk_file exParse "n.txt" "hello".data)[0]? = some exStampedChunk
    ∧ exStampedChunk.metadata.dependencies
        = some (extract_dependencies (detect_language "n.txt") "hello".data)
    ∧ exStampedChunk.metadata.chunk_id = some ("n.txt" ++ "::chunk" ++ Nat.repr 0) :=
  ⟨by decide,
   (chunk_file_stamps exParse "n.txt" "hello".data 0 exStampedChunk (by decide)).1,
   (chunk_file_stamps exParse "n.txt" "hello".data 0 exStampedChunk (by decide)).2.1⟩

theorem mdPack_final_sid (file_path : String) :
    ∀ (paras : List PyStr) (sid : Nat) (buf : List PyStr),
      (mdPack file_path sid buf paras).2
        = sid + (mdPack file_path sid buf paras).1.length := by
  intro paras
  induction paras with
  | nil =>
      intro sid buf
      by_cases h : buf = [] <;> simp [mdPack, h]
  | cons para paras ih =>
      intro sid buf
      rw [mdPack]
      by_cases h : (pysplitWs (pyjoin " ".data (buf ++ [para]))).length ≤ 400
      · simp only [h, if_true]
        exact ih sid (buf ++ [para])
      · simp only [h, if_false, List.length_cons]
        rw [ih (sid + 1) [para]]
        omega

theorem mdPack_section_id (file_path : String) :
    ∀ (paras : List PyStr) (sid : Nat) (buf : List PyStr) (i : Nat) (c : Chunk),
      (mdPack file_path sid buf paras).1[i]? = some c →
        c.metadata.section_id = some (sid + i) := by
  intro paras
  induction paras with
  | nil =>
      intro sid buf i c hc
      by_cases h : buf = [] <;> simp [mdPack, h] at hc
      match i with
      | 0 =>
          simp at hc
          rw [← hc]
          simp [mdChunk]
      | i + 1 => simp at hc
  | cons para paras ih =>
      intro sid buf i c hc
      rw [mdPack] at hc
      by_cases h : (pysplitWs (pyjoin " ".data (buf ++ [para]))).length ≤ 400
      · simp only [h, if_true] at hc
        exact ih sid (buf ++ [para]) i c hc
      · simp only [h, if_false] at hc
        match i with
        | 0 =>
            simp only [List.getElem?_cons_zero, Option.some.injEq] at hc
            rw [← hc]
            simp [mdChunk]
        | i + 1 =>
            simp only [List.getElem?_cons_succ] at hc
            have hrec := ih (sid + 1) [para] i c hc
            rw [hrec]
            have harith : sid + 1 + i = sid + (i + 1) := by omega
            rw [harith]

theorem mdEmitSection_final_sid (file_path : String) (sid : Nat) (sec : PyStr) :
    (mdEmitSection file_path sid sec).2
      = sid + (mdEmitSection file_path sid sec).1.length := by
  rw [mdEmitSection]
  by_cases h : (pysplitWs sec).length ≤ 400
  · simp [h]
  · simp only [h, if_false]
    exact mdPack_final_sid file_path _ sid []

theorem mdEmitSection_section_id (file_path : String) (sid : Nat) (sec : PyStr) :
    ∀ (i : Nat) (c : Chunk),
      (mdEmitSection file_path sid sec).1[i]? = some c →
        c.metadata.section_id = some (sid + i) := by
  intro i c hc
  rw [mdEmitSection] at hc
  by_cases h : (pysplitWs sec).length ≤ 400
  · simp only [h, if_true] at hc
    match i with
    | 0 =>
        simp only [List.getElem?_cons_zero, Option.some.injEq] at hc
        rw [← hc]
        simp [mdChunk]
    | i + 1 => simp at hc
  · simp only [h, if_false] at hc
    exact mdPack_section_id file_path _ sid [] i c hc

theorem mdLoop_section_id (file_path : String) :
    ∀ (secs : List PyStr) (sid : Nat) (i : Nat) (c : Chunk),
      (mdLoop file_path sid secs)[i]? = some c →
        c.metadata.section_id = some (sid + i) := by
  intro secs
  induction secs with
  | nil => intro sid i c hc; simp [mdLoop] at hc
  | cons sec secs ih =>
      intro sid i c hc
      rw [mdLoop] at hc
      by_cases h : i < (mdEmitSection file_path sid sec).1.length
      · rw [List.getElem?_append_left h] at hc
        exact mdEmitSection_section_id file_path sid sec i c hc
      · push_neg at h
        rw [List.getElem?_append_right h] at hc
        have hrec := ih (mdEmitSection file_path sid sec).2
          (i - (mdEmitSection file_path sid sec).1.length) c hc
        rw [mdEmitSection_final_sid file_path sid sec] at hrec
        rw [hrec]
        congr 1
        omega

/-- C10: the i-th chunk (zero-based) of `chunk_markdown` has metadata
`section_id` equal to `i` — `section_id`s are consecutive from 0 with no
gaps — and for a markdown file, each chunk's `section_id` equals the
sequence number embedded in the `chunk_id` later stamped by
`chunk_file`. -/
theorem chunk_markdown_section_ids :
    (∀ (file_path : String) (content : PyStr) (i : Nat) (c : Chunk),
        (chunk_markdown file_path content)[i]? = some c →
          c.metadata.section_id = some i)
    ∧ (∀ (parse : String → PyStr → TSNode) (file_path : String) (content : PyStr)
          (i : Nat) (c : Chunk),
        detect_language file_path = "markdown" →
        (chunk_file parse file_path content)[i]? = some c →
          c.metadata.section_id = some i
          ∧ c.metadata.chunk_id = some (file_path ++ "::chunk" ++ Nat.repr i)) := by
  have hmd : ∀ (file_path : String) (content : PyStr) (i : Nat) (c : Chunk),
      (chunk_markdown file_path content)[i]? = some c →
        c.metadata.section_id = some i := by
    intro file_path content i c hc
    rw [chunk_markdown] at hc
    have h0 := mdLoop_section_id file_path _ 0 i c hc
    rw [h0, Nat.zero_add]
  refine ⟨hmd, ?_⟩
  intro parse file_path content i c hlang hc
  rw [chunk_file] at hc
  rw [stampAll_getElem] at hc
  rw [if_pos hlang] at hc
  match hb : (chunk_markdown file_path content)[i]? with
  | none => rw [hb] at hc; simp at hc
  | some c0 =>
      rw [hb] at hc
      simp only [Option.map_some', Option.some.injEq, Nat.zero_add] at hc
      subst hc
      exact ⟨hmd file_path content i c0 hb, rfl⟩

/-- C10 witness: a two-section markdown file, raw and stamped. -/
theorem chunk_markdown_section_ids_witness :
    ((chunk_markdown "m.md" "# H\nbody".data)[0]? = some (mdChunk "m.md" "# H".data 0)
      ∧ (mdChunk "m.md" "# H".data 0).metadata.section_id = some 0)
    ∧ ((chunk_file exParse "m.md" "# H\nbody".data)[0]? = some exMdStamped
      ∧ exMdStamped.metadata.section_id = some 0
      ∧ exMdStamped.metadata.chunk_id = some ("m.md" ++ "::chunk" ++ Nat.repr 0)) :=
  ⟨⟨by decide,
    chunk_markdown_section_ids.1 "m.md" "# H\nbody".data 0 (mdChunk "m.md" "# H".data 0)
      (by decide)⟩,
   ⟨by decide,
    (chunk_markdown_section_ids.2 exParse "m.md" "# H\nbody".data 0 exMdStamped
      (by decide) (by decide)).1,
    (chunk_markdown_section_ids.2 exParse "m.md" "# H\nbody".data 0 exMdStamped
      (by decide) (by decide)).2⟩⟩

theorem pystrip_eq_nil_iff (s : PyStr) : pystrip s = [] ↔ ∀ c ∈ s, pyIsWs c := by
  rw [pystrip, List.reverse_eq_nil_iff, List.dropWhile_eq_nil_iff]
  constructor
  · intro h c hc
    rw [← List.takeWhile_append_dropWhile (p := pyIsWs) (l := s)] at hc
    rcases List.mem_append.mp hc with h1 | h2
    · exact List.mem_takeWhile_imp h1
    · exact h c (List.mem_reverse.mpr h2)
  · intro h c hc
    exact h c ((List.dropWhile_sublist pyIsWs).subset (List.mem_reverse.mp hc))

theorem splitOnNl_ne_nil (s : PyStr) : splitOnNl s ≠ [] := by
  induction s with
  | nil => simp [splitOnNl]
  | cons c rest ih =>
      rw [splitOnNl]
      by_cases h : c = '\n'
      · simp [h]
      · simp only [h, if_false]
        intro hz
        apply ih
        have hlen := congrArg List.length hz
        simp only [List.length_modifyHead, List.length_nil] at hlen
        exact List.length_eq_zero.mp hlen

theorem splitOnNl_all_ws (s : PyStr) :
    (∀ l ∈ splitOnNl s, ∀ c ∈ l, pyIsWs c) ↔ (∀ c ∈ s, pyIsWs c) := by
  induction s with
  | nil => simp [splitOnNl]
  | cons c rest ih =>
      rw [splitOnNl]
      by_cases h : c = '\n'
      · subst h
        rw [if_pos rfl]
        constructor
        · intro hh c hc
          rcases List.mem_cons.mp hc with h1 | h2
          · subst h1; decide
          · exact ih.mp (fun l hl => hh l (List.mem_cons_of_mem _ hl)) c h2
        · intro hh l hl
          rcases List.mem_cons.mp hl with h1 | h2
          · subst h1
            intro c hc
            simp at hc
          · exact ih.mpr (fun c hc => hh c (List.mem_cons_of_mem _ hc)) l h2
      · simp only [h, if_false]
        obtain ⟨hd, tl, heq⟩ : ∃ hd tl, splitOnNl rest = hd :: tl := by
          match hsp : splitOnNl rest with
          | [] => exact absurd hsp (splitOnNl_ne_nil rest)
          | hd :: tl => exact ⟨hd, tl, rfl⟩
        rw [heq, List.modifyHead_cons]
        rw [heq] at ih
        simp only [List.forall_mem_cons] at *
        constructor
        · rintro ⟨⟨hc, hhd⟩, htl⟩
          exact ⟨hc, ih.mp ⟨hhd, htl⟩⟩
        · rintro ⟨hc, hrest⟩
          have h2 := ih.mpr hrest
          exact ⟨⟨hc, h2.1⟩, h2.2⟩

theorem mem_splitOnNl_cases (s : PyStr) (l : PyStr) (hl : l ∈ splitOnNl s) :
    l ∈ pysplitlines s ∨ l = [] := by
  rw [pysplitlines]
  by_cases h : (splitOnNl s).getLast? = some []
  · simp only [h, if_pos rfl]
    have hne := splitOnNl_ne_nil s
    have hdec := List.dropLast_append_getLast hne
    rw [← hdec] at hl
    rcases List.mem_append.mp hl with h1 | h2
    · exact Or.inl h1
    · right
      have hlast : (splitOnNl s).getLast hne = [] := by
        have h3 := List.getLast?_eq_getLast (splitOnNl s) hne
        rw [h3] at h
        exact Option.some.inj h
      simp only [List.mem_singleton] at h2
      rw [h2, hlast]
  · rw [if_neg h]
    exact Or.inl hl

theorem mem_pyjoin (sep : PyStr) :
    ∀ (parts : List PyStr) (l : PyStr), l ∈ parts → ∀ c ∈ l, c ∈ pyjoin sep parts := by
  intro parts
  induction parts with
  | nil => simp
  | cons p ps ih =>
      intro l hl c hc
      cases ps with
      | nil =>
          simp only [List.mem_singleton] at hl
          subst hl
          simpa [pyjoin] using hc
      | cons q qs =>
          have heq : pyjoin sep (p :: q :: qs) = p ++ sep ++ pyjoin sep (q :: qs) := rfl
          rw [heq]
          rcases List.mem_cons.mp hl with h1 | h2
          · subst h1
            exact List.mem_append.mpr (Or.inl (List.mem_append.mpr (Or.inl hc)))
          · exact List.mem_append.mpr (Or.inr (ih l h2 c hc))

theorem flatMap_windows_aux : ∀ (N : Nat) (L : List PyStr), L.length ≤ N →
    (List.range ((L.length + 79) / 80)).flatMap (fun j => (L.drop (80 * j)).take 80) = L := by
  intro N
  induction N with
  | zero =>
      intro L hL
      have hnil : L = [] := List.length_eq_zero.mp (by omega)
      subst hnil
      simp
  | succ N ih =>
      intro L hL
      by_cases hL0 : L = []
      · subst hL0
        simp
      · have hlen : 1 ≤ L.length := by
          cases L with
          | nil => exact absurd rfl hL0
          | cons a as => simp
        have hA : (L.length + 79) / 80 = (L.length - 1) / 80 + 1 := by
          have he : L.length + 79 = (L.length - 1) + 80 := by omega
          rw [he, Nat.add_div_right _ (by norm_num)]
        have hB : ((L.drop 80).length + 79) / 80 = (L.length - 1) / 80 := by
          rw [List.length_drop]
          by_cases h80 : L.length ≤ 80
          · have h1 : L.length - 80 = 0 := by omega
            rw [h1, Nat.div_eq_of_lt (by norm_num), Nat.div_eq_of_lt (by omega)]
          · have he : L.length - 80 + 79 = L.length - 1 := by omega
            rw [he]
        have hd : (L.drop 80).length ≤ N := by
          rw [List.length_drop]
          omega
        have hrec := ih (L.drop 80) hd
        rw [hB] at hrec
        rw [hA, List.range_succ_eq_map, List.flatMap_cons, List.flatMap_map]
        have hfun : (fun a : Nat => (L.drop (80 * (a + 1))).take 80)
            = fun j => ((L.drop 80).drop (80 * j)).take 80 := by
          funext j
          rw [List.drop_drop]
          have harith : 80 + 80 * j = 80 * (j + 1) := by ring
          rw [harith]
        simp only [Nat.succ_eq_add_one]
        rw [hfun, hrec]
        have h0 : 80 * 0 = 0 := rfl
        rw [h0, List.drop_zero, List.take_append_drop]

theorem flatMap_windows (L : List PyStr) :
    (List.range ((L.length + 79) / 80)).flatMap (fun j => (L.drop (80 * j)).take 80) = L :=
  flatMap_windows_aux L.length L (Nat.le_refl _)

theorem length_filterMap_blocks (file_path : String) (lines : List PyStr) :
    ∀ js : List Nat,
      (js.filterMap fun j =>
          if textWindow lines j = [] then none
          else some (textChunk file_path (textWindow lines j) j)).length
        = js.length - (js.filter fun j => decide (textWindow lines j = [])).length := by
  intro js
  induction js with
  | nil => simp
  | cons j js ih =>
      by_cases h : textWindow lines j = []
      · simp only [List.filterMap_cons, h, if_true, List.filter_cons, decide_eq_true_eq,
          List.length_cons, ih]
        omega
      · have hle := List.length_filter_le (fun j => decide (textWindow lines j = [])) js
        simp only [List.filterMap_cons, h, if_false, List.filter_cons, decide_eq_true_eq,
          List.length_cons, ih]
        omega

/-- C8: `chunk_text` partitions the lines into consecutive windows of 80
lines (the windows concatenate back to the line list), keeps exactly the
windows that do not trim to empty — so the number of emitted blocks is
`⌈N/80⌉` minus the number of all-whitespace windows — and gives each
surviving block its window index as `block_id` (not renumbered after
drops), with its content the trimmed window. -/
theorem chunk_text_windows (file_path : String) (content : PyStr) :
    ((List.range (((pysplitlines content).length + 79) / 80)).flatMap
        fun j => ((pysplitlines content).drop (80 * j)).take 80) = pysplitlines content
    ∧ chunk_text file_path content
        = ((List.range (((pysplitlines content).length + 79) / 80)).filterMap fun j =>
            if textWindow (pysplitlines content) j = [] then none
            else some (textChunk file_path (textWindow (pysplitlines content) j) j))
    ∧ (chunk_text file_path content).length
        = ((pysplitlines content).length + 79) / 80
          - ((List.range (((pysplitlines content).length + 79) / 80)).filter fun j =>
              decide (textWindow (pysplitlines content) j = [])).length
    ∧ (∀ j : Nat, textWindow (pysplitlines content) j = []
        ↔ ∀ ch ∈ pyjoin ['\n'] (((pysplitlines content).drop (80 * j)).take 80), pyIsWs ch)
    ∧ ∀ c ∈ chunk_text file_path content, ∃ j : Nat,
        j < ((pysplitlines content).length + 79) / 80
        ∧ c.metadata.block_id = some j
        ∧ c.content = textWindow (pysplitlines content) j
        ∧ c.content ≠ [] := by
  have hkey : chunk_text file_path content
      = (List.range (((pysplitlines content).length + 79) / 80)).filterMap fun j =>
          if textWindow (pysplitlines content) j = [] then none
          else some (textChunk file_path (textWindow (pysplitlines content) j) j) := by
    rw [chunk_text]
    by_cases hB : ((List.range (((pysplitlines content).length + 79) / 80)).filterMap fun j =>
        if textWindow (pysplitlines content) j = [] then none
        else some (textChunk file_path (textWindow (pysplitlines content) j) j)) = []
    · have hall : ∀ j ∈ List.range (((pysplitlines content).length + 79) / 80),
          textWindow (pysplitlines content) j = [] := by
        intro j hj
        have hn := List.filterMap_eq_nil_iff.mp hB j hj
        by_cases h8 : textWindow (pysplitlines content) j = []
        · exact h8
        · rw [if_neg h8] at hn
          simp at hn
      have hlines : ∀ l ∈ pysplitlines content, ∀ c ∈ l, pyIsWs c := by
        intro l hl c hc
        have hl2 : l ∈ (List.range (((pysplitlines content).length + 79) / 80)).flatMap
            fun j => ((pysplitlines content).drop (80 * j)).take 80 := by
          rw [flatMap_windows]
          exact hl
        obtain ⟨j, hj, hlj⟩ := List.mem_flatMap.mp hl2
        have hwj := hall j hj
        rw [textWindow] at hwj
        exact (pystrip_eq_nil_iff _).mp hwj c (mem_pyjoin ['\n'] _ l hlj c hc)
      have hcontent : ∀ c ∈ content, pyIsWs c := by
        rw [← splitOnNl_all_ws]
        intro l hl c hc
        rcases mem_splitOnNl_cases content l hl with h1 | h1
        · exact hlines l h1 c hc
        · rw [h1] at hc
          simp at hc
      have hstrip : pystrip content = [] := (pystrip_eq_nil_iff content).mpr hcontent
      rw [hB]
      rw [if_neg]
      intro hcond
      exact hcond.2 hstrip
    · rw [if_neg]
      intro hcond
      exact hB hcond.1
  refine ⟨flatMap_windows (pysplitlines content), hkey, ?_, ?_, ?_⟩
  · rw [hkey, length_filterMap_blocks]
    rw [List.length_range]
  · intro j
    rw [textWindow, pystrip_eq_nil_iff]
  · intro c hc
    rw [hkey] at hc
    obtain ⟨j, hj, hcj⟩ := List.mem_filterMap.mp hc
    by_cases h8 : textWindow (pysplitlines content) j = []
    · rw [if_pos h8] at hcj
      simp at hcj
    · rw [if_neg h8] at hcj
      have hcj2 := Option.some.inj hcj
      refine ⟨j, List.mem_range.mp hj, ?_, ?_, ?_⟩
      · rw [← hcj2]
        rfl
      · rw [← hcj2]
        rfl
      · rw [← hcj2]
        exact h8

/-- C8 witness: a 3-line text file in one window. -/
theorem chunk_text_windows_witness :
    (chunk_text "notes.txt" "hello\n\nworld".data).length
      = ((pysplitlines "hello\n\nworld".data).length + 79) / 80
        - ((List.range (((pysplitlines "hello\n\nworld".data).length + 79) / 80)).filter fun j =>
            decide (textWindow (pysplitlines "hello\n\nworld".data) j = [])).length :=
  (chunk_text_windows "notes.txt" "hello\n\nworld".data).2.2.1

theorem c9body0_no_nl : ∀ c ∈ c9body0, ¬ c = '\n' := by
  intro c hc
  rw [c9body0] at hc
  obtain ⟨l, hl, hcl⟩ := List.mem_flatten.mp hc
  rw [List.mem_replicate] at hl
  rw [hl.2] at hcl
  have hor : c = 'a' ∨ c = ' ' := by simpa using hcl
  rcases hor with h | h <;> subst h <;> decide

theorem c9body_no_nl : ∀ c ∈ c9body, ¬ c = '\n' := by
  intro c hc
  rw [c9body] at hc
  rcases List.mem_append.mp hc with h1 | h1
  · obtain ⟨l, hl, hcl⟩ := List.mem_flatten.mp h1
    rw [List.mem_replicate] at hl
    rw [hl.2] at hcl
    have hor : c = 'a' ∨ c = ' ' := by simpa using hcl
    rcases hor with h | h <;> subst h <;> decide
  · have ha : c = 'a' := by simpa using h1
    subst ha
    decide

theorem splitOnNl_no_nl (s : PyStr) (h : ∀ c ∈ s, ¬ c = '\n') : splitOnNl s = [s] := by
  induction s with
  | nil => rfl
  | cons c rest ih =>
      rw [splitOnNl, if_neg (h c (List.mem_cons_self c rest)),
        ih (fun d hd => h d (List.mem_cons_of_mem c hd)), List.modifyHead_cons]

theorem splitOnNl_append_line (xs ys : PyStr) (h : ∀ c ∈ xs, ¬ c = '\n') :
    splitOnNl (xs ++ '\n' :: ys) = xs :: splitOnNl ys := by
  induction xs with
  | nil =>
      rw [List.nil_append, splitOnNl, if_pos rfl]
  | cons x xs ih =>
      rw [List.cons_append, splitOnNl, if_neg (h x (List.mem_cons_self x _)),
        ih (fun d hd => h d (List.mem_cons_of_mem x hd)), List.modifyHead_cons]

theorem splitNlNl_no_nl (s : PyStr) (h : ∀ c ∈ s, ¬ c = '\n') : splitNlNl s = [s] := by
  induction s with
  | nil => rfl
  | cons c rest ih =>
      rw [splitNlNl.eq_def]
      split
      · rename_i heq
        injection heq with h1 h2
        subst h1
        exact absurd rfl (h '\n' (List.mem_cons_self _ _))
      · rename_i c2 rest2 heq
        injection heq with h1 h2
        subst h1
        subst h2
        rw [ih (fun d hd => h d (List.mem_cons_of_mem c hd)), List.modifyHead_cons]
      · rename_i heq
        exact absurd heq (by simp)

theorem c9_splitOnNl : splitOnNl c9content = ["# Title".data, c9body0] := by
  have hc : c9content = "# Title".data ++ '\n' :: c9body0 := by
    rw [c9content]
    rfl
  rw [hc, splitOnNl_append_line _ _ (by decide), splitOnNl_no_nl _ c9body0_no_nl]

theorem c9_strip_body : pystrip ('\n' :: c9body0) = c9body := by decide

theorem c9_sections : mdSections c9content = ["# Title".data, c9body] := by
  rw [mdSections, splitHeadingParts, c9_splitOnNl]
  rw [buildParts, if_pos (by decide : isHeadingLine "# Title".data = true)]
  rw [buildParts]
  rw [if_neg (show ¬ isHeadingLine c9body0 = true by decide)]
  have hpe : ∀ (a b x : PyStr), pairEvens [a, b, x] = [(a, b), (x, [])] := fun a b x => rfl
  rw [hpe]
  simp only [List.filterMap_cons, List.filterMap_nil]
  rw [List.nil_append]
  rw [if_neg (show ¬ pystrip "# Title".data = [] by decide)]
  have happ : ['\n'] ++ c9body0 ++ ([] : PyStr) = '\n' :: c9body0 := by simp
  rw [happ, c9_strip_body]
  rw [if_neg (show ¬ c9body = [] by rw [c9body]; simp)]
  rw [show pystrip "# Title".data = "# Title".data from by decide]

theorem c9_wordcount : (pysplitWs c9body).length = 500 := by decide

theorem c9_strip_self : pystrip c9body = c9body := by decide

theorem c9_emit_body : mdEmitSection "doc.md" 1 c9body
    = ([mdChunk "doc.md" [] 1, mdChunk "doc.md" c9body 2], 3) := by
  rw [mdEmitSection]
  rw [if_neg (by rw [c9_wordcount]; norm_num)]
  rw [splitNlNl_no_nl _ c9body_no_nl]
  simp only [List.filterMap_cons, List.filterMap_nil]
  rw [c9_strip_self]
  rw [if_neg (show ¬ c9body = [] by rw [c9body]; simp)]
  rw [mdPack]
  have hj1 : pyjoin " ".data ([] ++ [c9body]) = c9body := rfl
  rw [hj1, if_neg (by rw [c9_wordcount]; norm_num)]
  rw [mdPack]
  rw [if_neg (show ¬ ([c9body] : List PyStr) = [] by simp)]
  rfl

theorem c9_emit_title : mdEmitSection "doc.md" 0 "# Title".data
    = ([mdChunk "doc.md" "# Title".data 0], 1) := by decide

theorem c9_chunks : chunk_markdown "doc.md" c9content
    = [mdChunk "doc.md" "# Title".data 0, mdChunk "doc.md" [] 1, mdChunk "doc.md" c9body 2] := by
  rw [chunk_markdown, c9_sections]
  rw [if_neg (show ¬ (["# Title".data, c9body] : List PyStr) = [] by simp)]
  rw [mdLoop, c9_emit_title]
  rw [mdLoop, c9_emit_body]
  rw [mdLoop]
  rfl

/-- C9: the claim says a single-heading markdown file with a 500-word
body yields exactly 2 section chunks with `section_id` 0 and 1; on the
code it yields 3 chunks (`section_id` 0, 1 and 2), the middle one with
empty content, because the heading lands in its own section (the
`re.split` pairing reads captured headings as the following section's
body) and the oversized body section flushes an empty buffer before its
single oversized paragraph. -/
theorem chunk_markdown_budget_example :
    (chunk_markdown "doc.md" c9content).length = 3
    ∧ (chunk_markdown "doc.md" c9content).map (fun c => c.metadata.section_id)
        = [some 0, some 1, some 2]
    ∧ ((chunk_markdown "doc.md" c9content).map Chunk.content)[1]? = some [] := by
  rw [c9_chunks]
  refine ⟨rfl, rfl, rfl⟩

/-- C1: the claim says each markdown section consists of a heading line
followed by the lines up to the next heading, so a section chunk
containing a heading begins with it; on the code, for the content
`"intro\n# H\nbody"`, the first emitted chunk is `"intro\n# H"` — it
contains the heading line at its end (position 6), not at its start —
and the heading's body `"body"` is a separate heading-less chunk,
because the pairing loop reads `re.split`'s even-indexed (unmatched)
parts as headings. -/
theorem markdown_heading_misattached :
    (chunk_markdown "doc.md" "intro\n# H\nbody".data).map Chunk.content
      = ["intro\n# H".data, "body".data]
    ∧ ("# H".data.isPrefixOf "intro\n# H".data) = false
    ∧ "intro\n# H".data.drop 6 = "# H".data := by
  refine ⟨by rfl, by decide, by decide⟩

/-- C3: the claim says every chunk has non-empty content, with zero
chunks for an empty source file; on the code, `chunk_markdown` of empty
content emits one chunk whose content is empty (the `sections or
[content]` fallback), and `chunk_code` of empty content with no
definition nodes emits one whole-file chunk whose content is empty. -/
theorem empty_content_chunks :
    chunk_markdown "empty.md" [] = [mdChunk "empty.md" [] 0]
    ∧ (mdChunk "empty.md" [] 0).content = []
    ∧ chunk_code "empty.py" [] "python" (.mk "module" 0 0 (0, 0) (0, 0) [])
        = [{ content := []
             metadata := {
               file_path := "empty.py", language := "python", node_type := "file",
               symbol_name := some "empty.py", start_line := some 1,
               end_line := some 1 } }] := by
  refine ⟨rfl, rfl, ?_⟩
  rfl
